/-
Verification of the GenGraphGram rewriting engine (src/gengraphgram/generator.py)
against its natural-language specification.

The source compiles textual production rules into networkx graphs and decides
rule applicability on a host graph.  We embed the lowering stage of `Rule`
(`_process_lhs` / `_process_rhs` / `_process_product` / `_process_path` /
`_process_id`) and the `Generator` applicability machinery
(`_get_useable_rules`, `_has_required_types`, `_has_required_type_counts`,
`_has_required_connections`, `_update_type_info`, `_make_starting_graph`,
`generate`) as executable Lean functions, and prove the claimed properties.

Modelling conventions:
- a networkx `Graph` becomes `NXGraph`: an association list of nodes
  `(name, type attribute)`, a list of undirected edges, and the two
  graph-level attributes `graph["types"]` (a set) and `graph["type_counts"]`
  (a `defaultdict(int)`, modelled as an association list with default 0);
- the Lark parse tree for one rule (shape fixed by the grammar
  `rule := lhs "==>" rhs ";"`, `rhs := product ("|" product)*`,
  `product := path ("," path)*`, `path := id ("->" id)*`,
  `id := WORD [INT]`) becomes `RuleTree`, with the nonemptiness that the
  grammar guarantees built into the structures;
- `GraphMatcher(host, pattern, node_matcher).subgraph_is_isomorphic()` from
  networkx decides whether some node-induced subgraph of the host is
  isomorphic to the pattern under the type-equality node matcher; we model it
  by brute-force enumeration of injective assignments (`injMaps`) checked by
  `inducedIsoCheck`;
- Python exceptions become an explicit `Except PyError` result.
-/
import Mathlib

/-- One `id` occurrence of the rule grammar: a WORD token (the type) and an
optional INT token (the label), both kept as the token's string value. -/
structure IdTree where
  typ : String
  label : Option String
  deriving DecidableEq, Repr

/-- One `path` of the rule grammar: `id ("->" id)*`, at least one id. -/
structure PathTree where
  first : IdTree
  rest : List IdTree
  deriving DecidableEq, Repr

/-- One `product` of the rule grammar: `path ("," path)*`, at least one path. -/
structure ProductTree where
  first : PathTree
  rest : List PathTree
  deriving DecidableEq, Repr

/-- The `rhs` of the rule grammar: `product ("|" product)*`, at least one. -/
structure RhsTree where
  first : ProductTree
  rest : List ProductTree
  deriving DecidableEq, Repr

/-- The parse tree of one whole rule: `lhs "==>" rhs ";"`. -/
structure RuleTree where
  lhs : ProductTree
  rhs : RhsTree
  deriving DecidableEq, Repr

/-- A networkx `Graph` as the source uses it: node association list
(name, value of the "type" attribute), an undirected edge list, and the two
graph attributes `types` (a set) and `type_counts` (a `defaultdict(int)`). -/
structure NXGraph where
  nodes : List (String × String)
  edges : List (String × String)
  types : Finset String
  typeCounts : List (String × Nat)
  deriving DecidableEq

/-- The node names of a graph, in insertion order. -/
def nodeNames (g : NXGraph) : List String :=
  g.nodes.map Prod.fst

/-- Lookup in a `defaultdict(int)`: the stored count, or 0 when absent. -/
def lookupCount : List (String × Nat) → String → Nat
  | [], _ => 0
  | p :: rest, t => if p.1 = t then p.2 else lookupCount rest t

/-- The `type_counts[typ] += 1` update on a `defaultdict(int)`. -/
def bump : List (String × Nat) → String → List (String × Nat)
  | [], t => [(t, 1)]
  | (s, c) :: rest, t => if s = t then (s, c + 1) :: rest else (s, c) :: bump rest t

/-- Undirected edge membership of a networkx graph: `(a, b)` and `(b, a)`
denote the same edge. -/
def hasEdge (g : NXGraph) (a b : String) : Bool :=
  g.edges.any (fun e => (e.1 == a && e.2 == b) || (e.1 == b && e.2 == a))

/-- networkx `graph.add_edge(a, b)`: idempotent on an existing undirected
edge, otherwise appends the edge (self-loops are allowed by networkx). -/
def add_edge (g : NXGraph) (a b : String) : NXGraph :=
  if hasEdge g a b then g else { g with edges := g.edges ++ [(a, b)] }

/-- `Graph(types=set(), type_counts=defaultdict(int))`: the empty graph that
`Rule._process_product` starts from. -/
def emptyNXGraph : NXGraph :=
  { nodes := [], edges := [], types := ∅, typeCounts := [] }

/-- The node name `Rule._process_id` computes from an `id` tree: the WORD
token alone, or the WORD token concatenated with the INT token. -/
def idName (i : IdTree) : String :=
  match i.label with
  | none => i.typ
  | some l => i.typ ++ l

/-- Rule._process_id: if the name is not yet a node, add it with the type as
its `type` attribute and update the graph's `types` set and `type_counts`;
otherwise leave the graph unchanged.  Returns the name and the new graph. -/
def process_id (i : IdTree) (g : NXGraph) : String × NXGraph :=
  let name := idName i
  if g.nodes.any (fun nt => nt.1 == name) then (name, g)
  else (name,
    { g with
      nodes := g.nodes ++ [(name, i.typ)],
      types := insert i.typ g.types,
      typeCounts := bump g.typeCounts i.typ })

/-- One iteration of the edge loop of `Rule._process_path`: process the
source id, process the destination id, and add the edge between them. -/
def process_step (g : NXGraph) (ab : IdTree × IdTree) : NXGraph :=
  let sg := process_id ab.1 g
  let dg := process_id ab.2 sg.2
  add_edge dg.2 sg.1 dg.1

/-- The consecutive pairs `(children[i], children[i+1])` that
`Rule._process_path` iterates over. -/
def zipConsec (l : List IdTree) : List (IdTree × IdTree) :=
  l.zip l.tail

/-- Rule._process_path: a single-id path only processes the id; a longer path
processes every consecutive pair and adds an edge for each. -/
def process_path (p : PathTree) (g : NXGraph) : NXGraph :=
  match p.rest with
  | [] => (process_id p.first g).2
  | _ :: _ => (zipConsec (p.first :: p.rest)).foldl process_step g

/-- Rule._process_product: fold all paths of the product into the empty
graph. -/
def process_product (p : ProductTree) : NXGraph :=
  (p.first :: p.rest).foldl (fun g path => process_path path g) emptyNXGraph

/-- A compiled production rule: the LHS pattern graph and the list of RHS
product graphs. -/
structure Rule where
  lhs : NXGraph
  rhs : List NXGraph
  deriving DecidableEq

/-- Rule._process_rhs: one product graph per `|`-alternative, in order. -/
def process_rhs (r : RhsTree) : List NXGraph :=
  (r.first :: r.rest).map process_product

/-- Rule.__init__ (lowering part): compile the lhs product and every rhs
product. -/
def compileRule (rt : RuleTree) : Rule :=
  { lhs := process_product rt.lhs, rhs := process_rhs rt.rhs }

/-- Generator._has_required_types: the lhs type set is a subset of the host
graph's recorded type set. -/
def has_required_types (r : Rule) (types : Finset String) : Bool :=
  decide (r.lhs.types ⊆ types)

/-- Generator._has_required_type_counts: for every entry of the rule's
required type counts, the host's recorded count is at least as large. -/
def has_required_type_counts (r : Rule) (typeCounts : List (String × Nat)) : Bool :=
  r.lhs.typeCounts.all (fun p => decide (p.2 ≤ lookupCount typeCounts p.1))

/-- All injective assignments of (distinct) host node names to the pattern
node names: the candidate maps a VF2 subgraph-isomorphism search ranges
over. -/
def injMaps : List String → List String → List (List (String × String))
  | [], _ => [[]]
  | a :: as, hs =>
      hs.flatMap (fun h => (injMaps as (hs.erase h)).map (fun m => (a, h) :: m))

/-- Apply a finite assignment, defaulting to the empty string off-domain. -/
def applyMap : List (String × String) → String → String
  | [], _ => ""
  | p :: rest, a => if p.1 = a then p.2 else applyMap rest a

/-- One candidate map is a node-induced subgraph isomorphism: every pattern
node maps to a host node with the same `type` attribute, and two pattern
nodes are adjacent exactly when their images are (this is what networkx's
`GraphMatcher.subgraph_is_isomorphic` checks, self-loops included). -/
def inducedIsoCheck (pat host : NXGraph) (m : List (String × String)) : Bool :=
  pat.nodes.all (fun nt => decide ((applyMap m nt.1, nt.2) ∈ host.nodes)) &&
  (nodeNames pat).all (fun a => (nodeNames pat).all (fun b =>
    hasEdge pat a b == hasEdge host (applyMap m a) (applyMap m b)))

/-- Generator._has_required_connections:
networkx `GraphMatcher(graph, rule.lhs, node_matcher).subgraph_is_isomorphic()` decides
whether some node-induced subgraph of the host is isomorphic to the lhs under
the type-equality node matcher; modelled by brute-force enumeration. -/
def has_required_connections (r : Rule) (g : NXGraph) : Bool :=
  (injMaps (nodeNames r.lhs) (nodeNames g)).any (inducedIsoCheck r.lhs g)

/-- Generator._get_useable_rules: keep the rules passing the recorded-types
check, the recorded-counts check, and the subgraph-isomorphism check. -/
def get_useable_rules (rules : List Rule) (g : NXGraph) : List Rule :=
  rules.filter (fun r =>
    has_required_types r g.types &&
    has_required_type_counts r g.typeCounts &&
    has_required_connections r g)

/-- The set of types of the current nodes, as `_update_type_info` computes
it. -/
def computedTypes (nodes : List (String × String)) : Finset String :=
  (nodes.map Prod.snd).toFinset

/-- The number of current nodes carrying type `t`. -/
def countType (nodes : List (String × String)) (t : String) : Nat :=
  (nodes.filter (fun nt => nt.2 == t)).length

/-- Generator._update_type_info: recompute `graph.graph["types"]` and
`graph.graph["type_counts"]` from the current nodes and store them,
overwriting whatever was recorded before. -/
def update_type_info (g : NXGraph) : NXGraph :=
  { g with
    types := g.nodes.foldl (fun s nt => insert nt.2 s) (∅ : Finset String),
    typeCounts := g.nodes.foldl (fun m nt => bump m nt.2) [] }

/-- Python exceptions that the generator can raise. -/
inductive PyError where
  | indexError
  | notImplementedError
  deriving DecidableEq

/-- Generator._make_starting_graph: a deep copy of `self._rules[0].lhs`;
raises IndexError when the rule list is empty. -/
def make_starting_graph (rules : List Rule) : Except PyError NXGraph :=
  match rules with
  | [] => .error .indexError
  | r :: _ => .ok r.lhs

/-- Generator.generate: build the starting graph from the first rule's lhs,
then loop while some rule is useable.  `_apply_rule` calls
`_update_type_info` and then raises NotImplementedError, and after the loop
`generate` itself raises NotImplementedError before its dead `return graph`
line, so `generate` never returns a graph: it raises IndexError on an empty
rule list and NotImplementedError otherwise. -/
def generate (rules : List Rule) : Except PyError NXGraph :=
  match make_starting_graph rules with
  | .error e => .error e
  | .ok g =>
      if (get_useable_rules rules g).isEmpty then
        .error .notImplementedError
      else
        .error .notImplementedError

/-- Rule.get_random_product: with a single product return `rhs[0]` directly
(without consulting the random source); otherwise `random.choice`, modelled
by an externally supplied draw reduced modulo the list length.  `none`
models the IndexError that indexing an empty list would raise. -/
def get_random_product (r : Rule) (pick : Nat) : Option NXGraph :=
  if r.rhs.length = 1 then r.rhs.head?
  else r.rhs[pick % r.rhs.length]?


/-- Modelled from the spec's words (section 4.3): an embedding is an
injective mapping from pattern node names to host node ids such that every
pattern node maps to a host node of the same type and every pattern edge maps
to an existing host edge between the images of its endpoints (a graph
monomorphism: the host may have extra nodes and edges, including extra edges
between the images of pattern nodes). -/
def SpecEmbedding (pat host : NXGraph) (f : String → String) : Prop :=
  (∀ a ∈ nodeNames pat, ∀ b ∈ nodeNames pat, f a = f b → a = b) ∧
  (∀ nt ∈ pat.nodes, (f nt.1, nt.2) ∈ host.nodes) ∧
  (∀ e ∈ pat.edges, hasEdge host (f e.1) (f e.2) = true)

/-- An induced embedding additionally reflects adjacency: two pattern nodes
are adjacent exactly when their images are.  This is the node-induced
subgraph isomorphism that networkx's `subgraph_is_isomorphic` decides. -/
def InducedEmbedding (pat host : NXGraph) (f : String → String) : Prop :=
  SpecEmbedding pat host f ∧
  ∀ a ∈ nodeNames pat, ∀ b ∈ nodeNames pat,
    hasEdge pat a b = hasEdge host (f a) (f b)

instance specEmbeddingDecidable (pat host : NXGraph) (f : String → String) :
    Decidable (SpecEmbedding pat host f) := by
  unfold SpecEmbedding
  infer_instance

instance inducedEmbeddingDecidable (pat host : NXGraph) (f : String → String) :
    Decidable (InducedEmbedding pat host f) := by
  unfold InducedEmbedding
  infer_instance

/-- A graph whose recorded attributes agree with its live node list: the
recorded type set and type counts are exact, node names and count keys are
unrepeated, and every edge endpoint is a node.  Every graph the program
builds (`_process_product`, `_update_type_info`) satisfies this. -/
structure WellFormed (g : NXGraph) : Prop where
  types_eq : g.types = computedTypes g.nodes
  counts_eq : ∀ t, lookupCount g.typeCounts t = countType g.nodes t
  names_nodup : (nodeNames g).Nodup
  keys_nodup : (g.typeCounts.map Prod.fst).Nodup
  edges_sub : ∀ e ∈ g.edges, e.1 ∈ nodeNames g ∧ e.2 ∈ nodeNames g

theorem lookupCount_bump_self (m : List (String × Nat)) (t : String) :
    lookupCount (bump m t) t = lookupCount m t + 1 := by
  induction m with
  | nil => simp [bump, lookupCount]
  | cons p rest ih =>
    obtain ⟨s, c⟩ := p
    by_cases h : s = t
    · subst h; simp [bump, lookupCount]
    · simp [bump, lookupCount, h, ih]

theorem lookupCount_bump_ne (m : List (String × Nat)) (s t : String)
    (h : s ≠ t) : lookupCount (bump m t) s = lookupCount m s := by
  have h' : t ≠ s := Ne.symm h
  induction m with
  | nil => simp [bump, lookupCount, h']
  | cons p rest ih =>
    obtain ⟨u, c⟩ := p
    by_cases hu : u = t
    · subst hu; simp [bump, lookupCount, h']
    · simp [bump, lookupCount, hu, ih]

theorem mem_keys_bump (m : List (String × Nat)) (t x : String) :
    x ∈ (bump m t).map Prod.fst ↔ x ∈ m.map Prod.fst ∨ x = t := by
  induction m with
  | nil => simp [bump]
  | cons p rest ih =>
    obtain ⟨u, c⟩ := p
    by_cases hu : u = t
    · subst hu; simp [bump]; tauto
    · simp [bump, hu, ih]; tauto

theorem keys_bump_nodup (m : List (String × Nat)) (t : String)
    (h : (m.map Prod.fst).Nodup) : ((bump m t).map Prod.fst).Nodup := by
  induction m with
  | nil => simp [bump]
  | cons p rest ih =>
    obtain ⟨u, c⟩ := p
    simp only [List.map_cons, List.nodup_cons] at h
    by_cases hu : u = t
    · subst hu
      have hb : bump ((u, c) :: rest) u = (u, c + 1) :: rest := by simp [bump]
      rw [hb]
      simp only [List.map_cons, List.nodup_cons]
      exact h
    · simp only [bump, if_neg hu, List.map_cons, List.nodup_cons]
      constructor
      · intro hm
        rcases (mem_keys_bump rest t u).mp hm with hm | hm
        · exact h.1 hm
        · exact hu hm
      · exact ih h.2

theorem lookupCount_of_keys_nodup (m : List (String × Nat)) (t : String)
    (c : Nat) (hnd : (m.map Prod.fst).Nodup) (hm : (t, c) ∈ m) :
    lookupCount m t = c := by
  induction m with
  | nil => simp at hm
  | cons p rest ih =>
    obtain ⟨u, d⟩ := p
    simp only [List.map_cons, List.nodup_cons] at hnd
    rcases List.mem_cons.mp hm with hm | hm
    · injection hm with h1 h2
      subst h1; subst h2; simp [lookupCount]
    · have hne : u ≠ t := by
        intro hh; subst hh
        exact hnd.1 (List.mem_map.mpr ⟨(u, c), hm, rfl⟩)
      simp [lookupCount, hne, ih hnd.2 hm]

theorem countType_append_single (l : List (String × String)) (n ty t : String) :
    countType (l ++ [(n, ty)]) t = countType l t + if ty = t then 1 else 0 := by
  by_cases h : ty = t <;> simp [countType, List.filter_append, h]

theorem any_name_eq (g : NXGraph) (n : String) :
    (g.nodes.any (fun nt => nt.1 == n)) = true ↔ n ∈ nodeNames g := by
  simp [List.any_eq_true, nodeNames, List.mem_map, beq_iff_eq]

theorem process_id_of_mem {i : IdTree} {g : NXGraph}
    (h : idName i ∈ nodeNames g) : process_id i g = (idName i, g) := by
  have hb : (g.nodes.any (fun nt => nt.1 == idName i)) = true :=
    (any_name_eq g (idName i)).mpr h
  simp [process_id, hb]

theorem process_id_of_not_mem {i : IdTree} {g : NXGraph}
    (h : idName i ∉ nodeNames g) :
    process_id i g = (idName i,
      { g with
        nodes := g.nodes ++ [(idName i, i.typ)],
        types := insert i.typ g.types,
        typeCounts := bump g.typeCounts i.typ }) := by
  have hb : (g.nodes.any (fun nt => nt.1 == idName i)) = false := by
    rw [← Bool.not_eq_true]
    intro hc
    exact h ((any_name_eq g (idName i)).mp hc)
  simp [process_id, hb]

theorem process_id_fst (i : IdTree) (g : NXGraph) :
    (process_id i g).1 = idName i := by
  by_cases h : idName i ∈ nodeNames g
  · rw [process_id_of_mem h]
  · rw [process_id_of_not_mem h]

theorem nodeNames_process_id (i : IdTree) (g : NXGraph) :
    nodeNames (process_id i g).2 =
      if idName i ∈ nodeNames g then nodeNames g
      else nodeNames g ++ [idName i] := by
  by_cases h : idName i ∈ nodeNames g
  · rw [process_id_of_mem h, if_pos h]
  · rw [process_id_of_not_mem h, if_neg h]
    simp [nodeNames]

theorem mem_nodeNames_process_id (i : IdTree) (g : NXGraph) (x : String) :
    x ∈ nodeNames (process_id i g).2 ↔ x ∈ nodeNames g ∨ x = idName i := by
  rw [nodeNames_process_id]
  by_cases h : idName i ∈ nodeNames g
  · rw [if_pos h]
    constructor
    · exact fun hx => Or.inl hx
    · rintro (hx | hx)
      · exact hx
      · exact hx ▸ h
  · rw [if_neg h]
    simp

theorem process_id_name_mem (i : IdTree) (g : NXGraph) :
    (process_id i g).1 ∈ nodeNames (process_id i g).2 := by
  rw [process_id_fst, mem_nodeNames_process_id]
  exact Or.inr rfl

theorem mem_nodeNames_mono (i : IdTree) (g : NXGraph) (x : String)
    (hx : x ∈ nodeNames g) : x ∈ nodeNames (process_id i g).2 := by
  rw [mem_nodeNames_process_id]; exact Or.inl hx

theorem wf_process_id (i : IdTree) {g : NXGraph} (h : WellFormed g) :
    WellFormed (process_id i g).2 := by
  by_cases hm : idName i ∈ nodeNames g
  · rw [process_id_of_mem hm]; exact h
  · rw [process_id_of_not_mem hm]
    constructor
    · show insert i.typ g.types = computedTypes (g.nodes ++ [(idName i, i.typ)])
      rw [h.types_eq]
      simp [computedTypes, Finset.insert_eq, Finset.union_comm]
    · intro t
      show lookupCount (bump g.typeCounts i.typ) t =
        countType (g.nodes ++ [(idName i, i.typ)]) t
      rw [countType_append_single]
      by_cases ht : t = i.typ
      · subst ht
        rw [lookupCount_bump_self, h.counts_eq, if_pos rfl]
      · rw [lookupCount_bump_ne _ _ _ ht, h.counts_eq,
          if_neg (fun hh => ht hh.symm)]
        omega
    · show (nodeNames { g with
        nodes := g.nodes ++ [(idName i, i.typ)],
        types := insert i.typ g.types,
        typeCounts := bump g.typeCounts i.typ }).Nodup
      simp only [nodeNames, List.map_append, List.map_cons, List.map_nil]
      rw [List.nodup_append]
      refine ⟨h.names_nodup, List.nodup_singleton _, ?_⟩
      intro x hx hy
      rcases List.mem_singleton.mp hy with rfl
      exact hm hx
    · exact keys_bump_nodup _ _ h.keys_nodup
    · intro e he
      have := h.edges_sub e he
      constructor
      · show e.1 ∈ nodeNames { g with
          nodes := g.nodes ++ [(idName i, i.typ)],
          types := insert i.typ g.types,
          typeCounts := bump g.typeCounts i.typ }
        simp only [nodeNames, List.map_append]
        exact List.mem_append_left _ this.1
      · show e.2 ∈ nodeNames { g with
          nodes := g.nodes ++ [(idName i, i.typ)],
          types := insert i.typ g.types,
          typeCounts := bump g.typeCounts i.typ }
        simp only [nodeNames, List.map_append]
        exact List.mem_append_left _ this.2

theorem wf_add_edge {g : NXGraph} (a b : String) (h : WellFormed g)
    (ha : a ∈ nodeNames g) (hb : b ∈ nodeNames g) :
    WellFormed (add_edge g a b) := by
  unfold add_edge
  by_cases he : hasEdge g a b
  · rw [if_pos he]; exact h
  · rw [if_neg he]
    constructor
    · exact h.types_eq
    · exact h.counts_eq
    · exact h.names_nodup
    · exact h.keys_nodup
    · intro e hme
      rcases List.mem_append.mp hme with hme | hme
      · exact h.edges_sub e hme
      · rcases List.mem_singleton.mp hme with rfl
        exact ⟨ha, hb⟩

theorem nodeNames_add_edge (g : NXGraph) (a b : String) :
    nodeNames (add_edge g a b) = nodeNames g := by
  unfold add_edge
  by_cases he : hasEdge g a b
  · rw [if_pos he]
  · rw [if_neg he]; rfl

theorem wf_process_step (ab : IdTree × IdTree) {g : NXGraph}
    (h : WellFormed g) : WellFormed (process_step g ab) := by
  unfold process_step
  have h1 := wf_process_id ab.1 h
  have h2 := wf_process_id ab.2 h1
  apply wf_add_edge _ _ h2
  · rw [process_id_fst]
    apply mem_nodeNames_mono
    rw [← process_id_fst ab.1 g]
    exact process_id_name_mem ab.1 g
  · exact process_id_name_mem ab.2 (process_id ab.1 g).2

theorem wf_foldl_steps (ps : List (IdTree × IdTree)) {g : NXGraph}
    (h : WellFormed g) : WellFormed (ps.foldl process_step g) := by
  induction ps generalizing g with
  | nil => exact h
  | cons p rest ih => exact ih (wf_process_step p h)

theorem wf_process_path (p : PathTree) {g : NXGraph} (h : WellFormed g) :
    WellFormed (process_path p g) := by
  unfold process_path
  match p.rest with
  | [] => exact wf_process_id p.first h
  | q :: rest => exact wf_foldl_steps _ h

theorem wf_foldl_paths (ps : List PathTree) {g : NXGraph}
    (h : WellFormed g) :
    WellFormed (ps.foldl (fun g path => process_path path g) g) := by
  induction ps generalizing g with
  | nil => exact h
  | cons p rest ih => exact ih (wf_process_path p h)

theorem wf_empty : WellFormed emptyNXGraph := by
  constructor
  · simp [emptyNXGraph, computedTypes]
  · intro t; simp [emptyNXGraph, lookupCount, countType]
  · simp [emptyNXGraph, nodeNames]
  · simp [emptyNXGraph]
  · intro e he; simp [emptyNXGraph] at he

theorem wf_process_product (p : ProductTree) :
    WellFormed (process_product p) :=
  wf_foldl_paths _ wf_empty

theorem injMaps_keys : ∀ (as hs : List String) (m : List (String × String)),
    m ∈ injMaps as hs → m.map Prod.fst = as := by
  intro as
  induction as with
  | nil =>
    intro hs m hm
    simp only [injMaps, List.mem_singleton] at hm
    subst hm; rfl
  | cons a as ih =>
    intro hs m hm
    simp only [injMaps] at hm
    rw [List.mem_flatMap] at hm
    obtain ⟨h, _, hm⟩ := hm
    rw [List.mem_map] at hm
    obtain ⟨m', hm', rfl⟩ := hm
    simp [ih _ _ hm']

theorem injMaps_vals_mem : ∀ (as hs : List String) (m : List (String × String)),
    m ∈ injMaps as hs → ∀ p ∈ m, p.2 ∈ hs := by
  intro as
  induction as with
  | nil =>
    intro hs m hm
    simp only [injMaps, List.mem_singleton] at hm
    subst hm; intro p hp; simp at hp
  | cons a as ih =>
    intro hs m hm
    simp only [injMaps] at hm
    rw [List.mem_flatMap] at hm
    obtain ⟨h, hh, hm⟩ := hm
    rw [List.mem_map] at hm
    obtain ⟨m', hm', rfl⟩ := hm
    intro p hp
    rcases List.mem_cons.mp hp with hp | hp
    · subst hp; exact hh
    · exact List.mem_of_mem_erase (ih _ _ hm' p hp)

theorem injMaps_vals_nodup : ∀ (as hs : List String),
    hs.Nodup → ∀ m ∈ injMaps as hs, (m.map Prod.snd).Nodup := by
  intro as
  induction as with
  | nil =>
    intro hs _ m hm
    simp only [injMaps, List.mem_singleton] at hm
    subst hm; simp
  | cons a as ih =>
    intro hs hnd m hm
    simp only [injMaps] at hm
    rw [List.mem_flatMap] at hm
    obtain ⟨h, hh, hm⟩ := hm
    rw [List.mem_map] at hm
    obtain ⟨m', hm', rfl⟩ := hm
    simp only [List.map_cons, List.nodup_cons]
    constructor
    · intro hmem
      rw [List.mem_map] at hmem
      obtain ⟨p, hp, hps⟩ := hmem
      have : p.2 ∈ hs.erase h := injMaps_vals_mem _ _ _ hm' p hp
      rw [hps] at this
      rw [hnd.mem_erase_iff] at this
      exact this.1 rfl
    · exact ih _ (hnd.erase h) m' hm'

theorem injMaps_complete : ∀ (as hs : List String) (f : String → String),
    as.Nodup → (∀ a ∈ as, f a ∈ hs) →
    (∀ a ∈ as, ∀ b ∈ as, f a = f b → a = b) →
    (as.map (fun a => (a, f a))) ∈ injMaps as hs := by
  intro as
  induction as with
  | nil => intro hs f _ _ _; simp [injMaps]
  | cons a as ih =>
    intro hs f hnd hmem hinj
    simp only [List.map_cons, injMaps]
    rw [List.mem_flatMap]
    refine ⟨f a, hmem a (List.mem_cons_self a as), ?_⟩
    rw [List.mem_map]
    refine ⟨as.map (fun x => (x, f x)), ?_, rfl⟩
    apply ih
    · exact (List.nodup_cons.mp hnd).2
    · intro b hb
      have hfb : f b ∈ hs := hmem b (List.mem_cons_of_mem _ hb)
      have hba : f b ≠ f a := by
        intro he
        have hba' : b = a :=
          hinj b (List.mem_cons_of_mem _ hb) a (List.mem_cons_self a as) he
        exact (List.nodup_cons.mp hnd).1 (hba' ▸ hb)
      exact (List.mem_erase_of_ne hba).mpr hfb
    · intro b hb c hc he
      exact hinj b (List.mem_cons_of_mem _ hb) c (List.mem_cons_of_mem _ hc) he

theorem applyMap_map_self (l : List String) (f : String → String) (a : String)
    (h : a ∈ l) : applyMap (l.map (fun x => (x, f x))) a = f a := by
  induction l with
  | nil => simp at h
  | cons b l ih =>
    simp only [List.map_cons, applyMap]
    by_cases hb : b = a
    · subst hb; simp
    · rw [if_neg hb]
      have hal : a ∈ l := by
        rcases List.mem_cons.mp h with h | h
        · exact absurd h.symm hb
        · exact h
      exact ih hal

theorem applyMap_mem (m : List (String × String)) (a : String)
    (h : a ∈ m.map Prod.fst) : (a, applyMap m a) ∈ m := by
  induction m with
  | nil => simp at h
  | cons p rest ih =>
    by_cases hp : p.1 = a
    · simp only [applyMap, if_pos hp]
      have hpa : (a, p.2) = p := by rw [← hp]
      rw [hpa]
      exact List.mem_cons_self p rest
    · simp only [applyMap, if_neg hp]
      have har : a ∈ rest.map Prod.fst := by
        rcases List.mem_cons.mp (List.map_cons Prod.fst p rest ▸ h) with h1 | h1
        · exact absurd h1.symm hp
        · exact h1
      exact List.mem_cons_of_mem _ (ih har)

theorem assoc_val_inj (m : List (String × String))
    (hnd : (m.map Prod.snd).Nodup) (a b v : String)
    (ha : (a, v) ∈ m) (hb : (b, v) ∈ m) : a = b := by
  induction m with
  | nil => simp at ha
  | cons p rest ih =>
    simp only [List.map_cons, List.nodup_cons] at hnd
    rcases List.mem_cons.mp ha with ha | ha <;>
      rcases List.mem_cons.mp hb with hb | hb
    · rw [← hb] at ha; injection ha
    · exfalso
      apply hnd.1
      rw [List.mem_map]
      refine ⟨(b, v), hb, ?_⟩
      rw [← ha]
    · exfalso
      apply hnd.1
      rw [List.mem_map]
      refine ⟨(a, v), ha, ?_⟩
      rw [← hb]
    · exact ih hnd.2 ha hb

theorem hasEdge_of_mem {g : NXGraph} {e : String × String}
    (he : e ∈ g.edges) : hasEdge g e.1 e.2 = true := by
  unfold hasEdge
  rw [List.any_eq_true]
  exact ⟨e, he, by simp⟩

theorem inducedIsoCheck_sound (pat host : NXGraph) (m : List (String × String))
    (hhostnd : (nodeNames host).Nodup)
    (hedges : ∀ e ∈ pat.edges, e.1 ∈ nodeNames pat ∧ e.2 ∈ nodeNames pat)
    (hm : m ∈ injMaps (nodeNames pat) (nodeNames host))
    (hc : inducedIsoCheck pat host m = true) :
    InducedEmbedding pat host (applyMap m) := by
  have hkeys : m.map Prod.fst = nodeNames pat := injMaps_keys _ _ _ hm
  have hvals : (m.map Prod.snd).Nodup := injMaps_vals_nodup _ _ hhostnd m hm
  rw [inducedIsoCheck, Bool.and_eq_true] at hc
  obtain ⟨hc1, hc2⟩ := hc
  rw [List.all_eq_true] at hc1
  rw [List.all_eq_true] at hc2
  have htype : ∀ nt ∈ pat.nodes, (applyMap m nt.1, nt.2) ∈ host.nodes := by
    intro nt hnt
    have := hc1 nt hnt
    rwa [decide_eq_true_eq] at this
  have hind : ∀ a ∈ nodeNames pat, ∀ b ∈ nodeNames pat,
      hasEdge pat a b = hasEdge host (applyMap m a) (applyMap m b) := by
    intro a ha b hb
    have h2 := hc2 a ha
    rw [List.all_eq_true] at h2
    have h3 := h2 b hb
    rwa [beq_iff_eq] at h3
  have hinj : ∀ a ∈ nodeNames pat, ∀ b ∈ nodeNames pat,
      applyMap m a = applyMap m b → a = b := by
    intro a ha b hb he
    have hma : (a, applyMap m a) ∈ m := applyMap_mem m a (hkeys ▸ ha)
    have hmb : (b, applyMap m b) ∈ m := applyMap_mem m b (hkeys ▸ hb)
    rw [he] at hma
    exact assoc_val_inj m hvals a b _ hma hmb
  refine ⟨⟨hinj, htype, ?_⟩, hind⟩
  intro e he
  have hab := hedges e he
  rw [← hind e.1 hab.1 e.2 hab.2]
  exact hasEdge_of_mem he

theorem inducedIsoCheck_complete (pat host : NXGraph) (f : String → String)
    (hpatnd : (nodeNames pat).Nodup)
    (hemb : InducedEmbedding pat host f) :
    ∃ m ∈ injMaps (nodeNames pat) (nodeNames host),
      inducedIsoCheck pat host m = true := by
  obtain ⟨⟨hinj, htype, _⟩, hind⟩ := hemb
  have himg : ∀ a ∈ nodeNames pat, f a ∈ nodeNames host := by
    intro a ha
    rw [nodeNames, List.mem_map] at ha
    obtain ⟨nt, hnt, rfl⟩ := ha
    have := htype nt hnt
    rw [nodeNames, List.mem_map]
    exact ⟨(f nt.1, nt.2), this, rfl⟩
  refine ⟨(nodeNames pat).map (fun n => (n, f n)), ?_, ?_⟩
  · exact injMaps_complete _ _ f hpatnd himg hinj
  · rw [inducedIsoCheck, Bool.and_eq_true]
    constructor
    · rw [List.all_eq_true]
      intro nt hnt
      rw [decide_eq_true_eq]
      have hn : nt.1 ∈ nodeNames pat := by
        rw [nodeNames, List.mem_map]; exact ⟨nt, hnt, rfl⟩
      rw [applyMap_map_self _ f _ hn]
      exact htype nt hnt
    · rw [List.all_eq_true]
      intro a ha
      rw [List.all_eq_true]
      intro b hb
      rw [applyMap_map_self _ f _ ha, applyMap_map_self _ f _ hb, beq_iff_eq]
      exact hind a ha b hb

theorem has_required_connections_iff (r : Rule) (g : NXGraph)
    (hr : WellFormed r.lhs) (hg : WellFormed g) :
    has_required_connections r g = true ↔
      ∃ f, InducedEmbedding r.lhs g f := by
  constructor
  · intro hc
    rw [has_required_connections, List.any_eq_true] at hc
    obtain ⟨m, hm, hcheck⟩ := hc
    exact ⟨applyMap m,
      inducedIsoCheck_sound _ _ m hg.names_nodup hr.edges_sub hm hcheck⟩
  · intro ⟨f, hemb⟩
    rw [has_required_connections, List.any_eq_true]
    obtain ⟨m, hm, hcheck⟩ :=
      inducedIsoCheck_complete _ _ f hr.names_nodup hemb
    exact ⟨m, hm, hcheck⟩

theorem countType_le_of_embedding (pat host : NXGraph) (f : String → String)
    (hpatnd : (nodeNames pat).Nodup) (hhostnd : (nodeNames host).Nodup)
    (hinj : ∀ a ∈ nodeNames pat, ∀ b ∈ nodeNames pat, f a = f b → a = b)
    (htype : ∀ nt ∈ pat.nodes, (f nt.1, nt.2) ∈ host.nodes)
    (t : String) : countType pat.nodes t ≤ countType host.nodes t := by
  classical
  have hnameP : ∀ nt ∈ pat.nodes.filter (fun nt => nt.2 == t),
      nt.1 ∈ nodeNames pat := by
    intro nt hnt
    rw [nodeNames, List.mem_map]
    exact ⟨nt, List.mem_of_mem_filter hnt, rfl⟩
  have hPnd : (pat.nodes.filter (fun nt => nt.2 == t)).Nodup :=
    List.Nodup.filter _ (hpatnd.of_map Prod.fst)
  have hHnd : (host.nodes.filter (fun nt => nt.2 == t)).Nodup :=
    List.Nodup.filter _ (hhostnd.of_map Prod.fst)
  have hmapnd : ((pat.nodes.filter (fun nt => nt.2 == t)).map
      (fun nt => (f nt.1, nt.2))).Nodup := by
    apply List.Nodup.map_on ?_ hPnd
    intro x hx y hy hxy
    have h1 := congrArg Prod.fst hxy
    have h2 := congrArg Prod.snd hxy
    have h3 : x.1 = y.1 := hinj x.1 (hnameP x hx) y.1 (hnameP y hy) h1
    exact Prod.ext h3 h2
  have hsub : ((pat.nodes.filter (fun nt => nt.2 == t)).map
      (fun nt => (f nt.1, nt.2))) ⊆ host.nodes.filter (fun nt => nt.2 == t) := by
    intro x hx
    rw [List.mem_map] at hx
    obtain ⟨nt, hnt, rfl⟩ := hx
    rw [List.mem_filter]
    constructor
    · exact htype nt (List.mem_of_mem_filter hnt)
    · have hf := List.of_mem_filter hnt
      exact hf
  have hlen : ((pat.nodes.filter (fun nt => nt.2 == t)).map
      (fun nt => (f nt.1, nt.2))).length ≤
      (host.nodes.filter (fun nt => nt.2 == t)).length := by
    have h1 := List.toFinset_card_of_nodup hmapnd
    have h2 := List.toFinset_card_of_nodup hHnd
    have h3 : ((pat.nodes.filter (fun nt => nt.2 == t)).map
        (fun nt => (f nt.1, nt.2))).toFinset ⊆
        (host.nodes.filter (fun nt => nt.2 == t)).toFinset := by
      intro x hx
      rw [List.mem_toFinset] at hx
      rw [List.mem_toFinset]
      exact hsub hx
    rw [← h1, ← h2]
    exact Finset.card_le_card h3
  calc countType pat.nodes t
      = ((pat.nodes.filter (fun nt => nt.2 == t)).map
          (fun nt => (f nt.1, nt.2))).length := by
        rw [List.length_map]; rfl
    _ ≤ (host.nodes.filter (fun nt => nt.2 == t)).length := hlen
    _ = countType host.nodes t := rfl

theorem prechecks_of_embedding (r : Rule) (g : NXGraph)
    (hr : WellFormed r.lhs) (hg : WellFormed g) (f : String → String)
    (hinj : ∀ a ∈ nodeNames r.lhs, ∀ b ∈ nodeNames r.lhs, f a = f b → a = b)
    (htype : ∀ nt ∈ r.lhs.nodes, (f nt.1, nt.2) ∈ g.nodes) :
    has_required_types r g.types = true ∧
    has_required_type_counts r g.typeCounts = true := by
  constructor
  · rw [has_required_types, decide_eq_true_eq, hr.types_eq, hg.types_eq]
    intro t ht
    rw [computedTypes, List.mem_toFinset, List.mem_map] at ht
    obtain ⟨nt, hnt, rfl⟩ := ht
    rw [computedTypes, List.mem_toFinset, List.mem_map]
    exact ⟨(f nt.1, nt.2), htype nt hnt, rfl⟩
  · rw [has_required_type_counts, List.all_eq_true]
    intro p hp
    rw [decide_eq_true_eq]
    have hpc : lookupCount r.lhs.typeCounts p.1 = p.2 :=
      lookupCount_of_keys_nodup _ _ _ hr.keys_nodup
        (by rw [← Prod.mk.eta (p := p)] at hp; exact hp)
    calc p.2 = lookupCount r.lhs.typeCounts p.1 := hpc.symm
      _ = countType r.lhs.nodes p.1 := hr.counts_eq p.1
      _ ≤ countType g.nodes p.1 :=
          countType_le_of_embedding r.lhs g f hr.names_nodup hg.names_nodup
            hinj htype p.1
      _ = lookupCount g.typeCounts p.1 := (hg.counts_eq p.1).symm

/-- The id `A` (type `A`, no label). -/
def idA : IdTree := ⟨"A", none⟩

/-- The id `B` (type `B`, no label). -/
def idB : IdTree := ⟨"B", none⟩

/-- The id `A1` (type `A`, label `1`). -/
def idA1 : IdTree := ⟨"A", some "1"⟩

/-- The id `A2` (type `A`, label `2`). -/
def idA2 : IdTree := ⟨"A", some "2"⟩

/-- The id `A3` (type `A`, label `3`). -/
def idA3 : IdTree := ⟨"A", some "3"⟩

/-- The product `A1->A2->A3`: a 3-node path of type-`A` nodes. -/
def prodPathAAA : ProductTree := ⟨⟨idA1, [idA2, idA3]⟩, []⟩

/-- The product `B`: a single type-`B` node. -/
def prodB : ProductTree := ⟨⟨idB, []⟩, []⟩

/-- The product `A`: a single type-`A` node. -/
def prodA : ProductTree := ⟨⟨idA, []⟩, []⟩

/-- The product `A1->A2->A3, A3->A1`: a triangle of type-`A` nodes. -/
def prodTriangle : ProductTree := ⟨⟨idA1, [idA2, idA3]⟩, [⟨idA3, [idA1]⟩]⟩

/-- The compiled rule `A1->A2->A3 ==> B;`. -/
def rulePathAAA : Rule := compileRule ⟨prodPathAAA, ⟨prodB, []⟩⟩

/-- A host graph shaped like a triangle of three type-`A` nodes, built by the
compiler itself so that its recorded type attributes are exact. -/
def hostTriangle : NXGraph := process_product prodTriangle

/-- Claim C1, counterexample: the rule `A1->A2->A3 ==> B;` has an embedding
of its LHS into the triangle host graph in the claim's sense (injective,
type-preserving, every pattern edge present between the images — here the
identity on names), yet `_get_useable_rules` does not include the rule,
because networkx's `subgraph_is_isomorphic` requires a node-induced subgraph
and the triangle carries the extra edge `A3-A1` between images of pattern
nodes.  This refutes the claimed equivalence as stated. -/
theorem c1_counterexample :
    (∃ f, SpecEmbedding rulePathAAA.lhs hostTriangle f) ∧
    rulePathAAA ∉ get_useable_rules [rulePathAAA] hostTriangle :=
  ⟨⟨fun n => n, by decide⟩, by decide⟩

/-- Claim C1, amended: for a well-formed host graph and rule, the rule is in
the useable set iff there is an *induced* embedding of its LHS into the
host: injective, type-preserving, pattern edges mapped to host edges, and
additionally host edges between images of pattern nodes reflected back as
pattern edges (node-induced subgraph isomorphism). -/
theorem c1_useable_iff_induced_embedding (rules : List Rule) (r : Rule)
    (g : NXGraph) (hmem : r ∈ rules) (hr : WellFormed r.lhs)
    (hg : WellFormed g) :
    r ∈ get_useable_rules rules g ↔ ∃ f, InducedEmbedding r.lhs g f := by
  rw [get_useable_rules, List.mem_filter]
  constructor
  · intro hch
    obtain ⟨_, hchecks⟩ := hch
    rw [Bool.and_eq_true, Bool.and_eq_true] at hchecks
    exact (has_required_connections_iff r g hr hg).mp hchecks.2
  · intro hex
    refine ⟨hmem, ?_⟩
    rw [Bool.and_eq_true, Bool.and_eq_true]
    obtain ⟨f, hemb⟩ := hex
    have hpre := prechecks_of_embedding r g hr hg f hemb.1.1 hemb.1.2.1
    exact ⟨⟨hpre.1, hpre.2⟩,
      (has_required_connections_iff r g hr hg).mpr ⟨f, hemb⟩⟩

/-- Claim C1, witness: the amended equivalence instantiated on the concrete
rule and triangle host. -/
theorem c1_useable_iff_induced_embedding_witness :
    rulePathAAA ∈ get_useable_rules [rulePathAAA] hostTriangle ↔
      ∃ f, InducedEmbedding rulePathAAA.lhs hostTriangle f :=
  c1_useable_iff_induced_embedding [rulePathAAA] rulePathAAA hostTriangle
    (List.mem_cons_self _ _) (wf_process_product prodPathAAA)
    (wf_process_product prodTriangle)

/-- Claim C2: when any embedding (in the spec's monomorphism sense) of the
rule's LHS into the host exists, both cheap pre-checks pass: the LHS types
are all recorded in the host's type set, and every recorded LHS type count
is covered by the host's recorded count.  The pre-filter never excludes an
applicable rule. -/
theorem c2_prefilter_no_false_negative (r : Rule) (g : NXGraph)
    (hr : WellFormed r.lhs) (hg : WellFormed g) (f : String → String)
    (hf : SpecEmbedding r.lhs g f) :
    has_required_types r g.types = true ∧
    has_required_type_counts r g.typeCounts = true :=
  prechecks_of_embedding r g hr hg f hf.1 hf.2.1

/-- Claim C2, witness: the pre-checks pass on the concrete rule
`A1->A2->A3 ==> B;` and the triangle host, via the identity embedding. -/
theorem c2_prefilter_no_false_negative_witness :
    has_required_types rulePathAAA hostTriangle.types = true ∧
    has_required_type_counts rulePathAAA hostTriangle.typeCounts = true :=
  c2_prefilter_no_false_negative rulePathAAA hostTriangle
    (wf_process_product prodPathAAA) (wf_process_product prodTriangle)
    (fun n => n) (by decide)

/-- The ids of one path, in source order. -/
def pathIds (p : PathTree) : List IdTree :=
  p.first :: p.rest

/-- All id occurrences of a product, across its paths, in source order. -/
def productIds (p : ProductTree) : List IdTree :=
  (p.first :: p.rest).flatMap pathIds

theorem mem_nodeNames_process_step (ab : IdTree × IdTree) (g : NXGraph)
    (x : String) :
    x ∈ nodeNames (process_step g ab) ↔
      x ∈ nodeNames g ∨ x = idName ab.1 ∨ x = idName ab.2 := by
  simp only [process_step]
  rw [nodeNames_add_edge, mem_nodeNames_process_id,
    mem_nodeNames_process_id]
  tauto

theorem mem_nodeNames_foldl_steps (ps : List (IdTree × IdTree)) (g : NXGraph)
    (x : String) :
    x ∈ nodeNames (ps.foldl process_step g) ↔
      x ∈ nodeNames g ∨ ∃ p ∈ ps, x = idName p.1 ∨ x = idName p.2 := by
  induction ps generalizing g with
  | nil => simp
  | cons p rest ih =>
    rw [List.foldl_cons, ih, mem_nodeNames_process_step]
    constructor
    · rintro ((h | h | h) | ⟨q, hq, hx⟩)
      · exact Or.inl h
      · exact Or.inr ⟨p, List.mem_cons_self p rest, Or.inl h⟩
      · exact Or.inr ⟨p, List.mem_cons_self p rest, Or.inr h⟩
      · exact Or.inr ⟨q, List.mem_cons_of_mem _ hq, hx⟩
    · rintro (h | ⟨q, hq, hx⟩)
      · exact Or.inl (Or.inl h)
      · rcases List.mem_cons.mp hq with hq | hq
        · subst hq
          rcases hx with hx | hx
          · exact Or.inl (Or.inr (Or.inl hx))
          · exact Or.inl (Or.inr (Or.inr hx))
        · exact Or.inr ⟨q, hq, hx⟩

theorem zipConsec_cons_cons (a b : IdTree) (l : List IdTree) :
    zipConsec (a :: b :: l) = (a, b) :: zipConsec (b :: l) := by
  simp [zipConsec]

theorem mem_zipConsec_names (t : List IdTree) (a b : IdTree) (x : String) :
    (∃ p ∈ zipConsec (a :: b :: t), x = idName p.1 ∨ x = idName p.2) ↔
      x ∈ (a :: b :: t).map idName := by
  induction t generalizing a b with
  | nil =>
    simp [zipConsec]
  | cons c t ih =>
    rw [zipConsec_cons_cons]
    constructor
    · rintro ⟨p, hp, hx⟩
      rcases List.mem_cons.mp hp with hp | hp
      · subst hp
        rcases hx with hx | hx
        · exact hx ▸ List.mem_cons_self _ _
        · exact List.mem_cons_of_mem _ (hx ▸ List.mem_cons_self _ _)
      · have hmem := (ih b c).mp ⟨p, hp, hx⟩
        exact List.mem_cons_of_mem _ hmem
    · intro hx
      rcases List.mem_cons.mp hx with hx | hx
      · exact ⟨(a, b), List.mem_cons_self _ _, Or.inl hx⟩
      · obtain ⟨p, hp, hpx⟩ := (ih b c).mpr hx
        exact ⟨p, List.mem_cons_of_mem _ hp, hpx⟩

theorem mem_nodeNames_process_path (p : PathTree) (g : NXGraph) (x : String) :
    x ∈ nodeNames (process_path p g) ↔
      x ∈ nodeNames g ∨ x ∈ (pathIds p).map idName := by
  obtain ⟨a, rest⟩ := p
  cases rest with
  | nil =>
    simp only [process_path, pathIds]
    rw [mem_nodeNames_process_id]
    simp
  | cons b t =>
    simp only [process_path, pathIds]
    rw [mem_nodeNames_foldl_steps, mem_zipConsec_names]

theorem mem_nodeNames_foldl_paths (ps : List PathTree) (g : NXGraph)
    (x : String) :
    x ∈ nodeNames (ps.foldl (fun g path => process_path path g) g) ↔
      x ∈ nodeNames g ∨ ∃ p ∈ ps, x ∈ (pathIds p).map idName := by
  induction ps generalizing g with
  | nil => simp
  | cons p rest ih =>
    rw [List.foldl_cons, ih, mem_nodeNames_process_path]
    constructor
    · rintro ((h | h) | ⟨q, hq, hx⟩)
      · exact Or.inl h
      · exact Or.inr ⟨p, List.mem_cons_self p rest, h⟩
      · exact Or.inr ⟨q, List.mem_cons_of_mem _ hq, hx⟩
    · rintro (h | ⟨q, hq, hx⟩)
      · exact Or.inl (Or.inl h)
      · rcases List.mem_cons.mp hq with hq | hq
        · subst hq; exact Or.inl (Or.inr hx)
        · exact Or.inr ⟨q, hq, hx⟩

theorem mem_nodeNames_process_product (pt : ProductTree) (x : String) :
    x ∈ nodeNames (process_product pt) ↔ x ∈ (productIds pt).map idName := by
  rw [process_product, mem_nodeNames_foldl_paths]
  simp only [emptyNXGraph, nodeNames, List.map_nil, List.not_mem_nil,
    false_or, productIds, List.map_flatMap]
  rw [List.mem_flatMap]

/-- Claim C3: a compiled product graph has exactly one node per distinct name
occurring in the product's paths — the node-name list is duplicate-free and
contains exactly the names of the product's id occurrences — and processing
an id whose name is already a node returns the graph completely unchanged
(so a repeated occurrence adds no node, changes no type, and bumps no
count). -/
theorem c3_one_node_per_name (pt : ProductTree) :
    ((process_product pt).nodes.map Prod.fst).Nodup ∧
    (∀ n, n ∈ (process_product pt).nodes.map Prod.fst ↔
      n ∈ (productIds pt).map idName) ∧
    (∀ (i : IdTree) (g : NXGraph), idName i ∈ nodeNames g →
      process_id i g = (idName i, g)) := by
  refine ⟨(wf_process_product pt).names_nodup, ?_, ?_⟩
  · intro n
    exact mem_nodeNames_process_product pt n
  · intro i g h
    exact process_id_of_mem h

/-- Claim C3, witness: instantiated on the triangle product, whose paths
repeat the name `A1` and `A3` across paths, and on a repeated occurrence of
`A1` against the compiled triangle graph. -/
theorem c3_one_node_per_name_witness :
    ((process_product prodTriangle).nodes.map Prod.fst).Nodup ∧
    ("A2" ∈ (process_product prodTriangle).nodes.map Prod.fst ↔
      "A2" ∈ (productIds prodTriangle).map idName) ∧
    process_id idA1 hostTriangle = ("A1", hostTriangle) := by
  obtain ⟨h1, h2, h3⟩ := c3_one_node_per_name prodTriangle
  exact ⟨h1, h2 "A2", h3 idA1 hostTriangle (by decide)⟩

theorem foldl_insert_types (l : List (String × String)) (s : Finset String) :
    l.foldl (fun s nt => insert nt.2 s) s = s ∪ (l.map Prod.snd).toFinset := by
  induction l generalizing s with
  | nil => simp
  | cons p rest ih =>
    rw [List.foldl_cons, ih, List.map_cons, List.toFinset_cons,
      Finset.union_insert, Finset.insert_union]

theorem foldl_bump_counts (l : List (String × String))
    (m : List (String × Nat)) (t : String) :
    lookupCount (l.foldl (fun m nt => bump m nt.2) m) t =
      lookupCount m t + countType l t := by
  induction l generalizing m with
  | nil => simp [countType]
  | cons p rest ih =>
    rw [List.foldl_cons, ih]
    by_cases hp : p.2 = t
    · rw [← hp, lookupCount_bump_self]
      have hc : countType (p :: rest) p.2 = countType rest p.2 + 1 := by
        simp [countType, List.filter_cons]
      rw [hc]
      omega
    · rw [lookupCount_bump_ne _ _ _ (fun hh => hp hh.symm)]
      have hc : countType (p :: rest) t = countType rest t := by
        simp [countType, List.filter_cons, hp]
      rw [hc]

/-- Claim C4: after `_update_type_info`, the recorded type set is exactly the
set of types of the current nodes, and for every type the recorded count is
exactly the number of current nodes of that type, whatever was recorded
before. -/
theorem c4_update_type_info_exact (g : NXGraph) :
    (update_type_info g).types = computedTypes g.nodes ∧
    ∀ t, lookupCount (update_type_info g).typeCounts t =
      countType g.nodes t := by
  constructor
  · show g.nodes.foldl (fun s nt => insert nt.2 s) ∅ = computedTypes g.nodes
    rw [foldl_insert_types, computedTypes, Finset.empty_union]
  · intro t
    show lookupCount (g.nodes.foldl (fun m nt => bump m nt.2) []) t =
      countType g.nodes t
    rw [foldl_bump_counts]
    simp [lookupCount]

/-- The id with raw token value `A1` and no label: its name collides with
the name of the labelled id `A1` of type `A`, while its type `A1` differs.
(The Lark lexer itself could not produce this token, WORD being purely
alphabetic: within lexable rule text a name determines its type.) -/
def idConflict : IdTree := ⟨"A1", none⟩

/-- The product `A1, A1` in which the two ids carry the conflicting types
`A` and `A1` but the same name `A1`. -/
def prodConflict : ProductTree := ⟨⟨idA1, []⟩, [⟨idConflict, []⟩]⟩

/-- Claim C7, counterexample: compiling a product in which the same name
`A1` occurs with the two distinct types `A` and `A1` does not fail at all —
the source has no GrammarError/SemanticError and `_process_id` never
compares types — it silently keeps the first occurrence's type `A` and
ignores the conflicting occurrence, producing a one-node graph. -/
theorem c7_counterexample :
    process_product prodConflict =
      { nodes := [("A1", "A")], edges := [],
        types := insert "A" ∅, typeCounts := [("A", 1)] } := by decide

/-- Claim C7, amended: a second occurrence of an already present name, even
with a conflicting type, leaves the graph completely unchanged — the first
type silently wins and no error of any kind is raised (no SemanticError
exists in the source; moreover the lexical grammar, WORD being alphabetic
and INT numeric, cannot even produce two lexable ids of distinct types with
equal names). -/
theorem c7_conflict_silently_ignored (i : IdTree) (g : NXGraph) (t : String)
    (hmem : (idName i, t) ∈ g.nodes) (_hconf : t ≠ i.typ) :
    process_id i g = (idName i, g) := by
  apply process_id_of_mem
  rw [nodeNames, List.mem_map]
  exact ⟨(idName i, t), hmem, rfl⟩

/-- Claim C7, witness: the conflicting id `A1` (type `A1`) processed against
the graph already holding node `A1` of type `A`. -/
theorem c7_conflict_silently_ignored_witness :
    process_id idConflict (process_product ⟨⟨idA1, []⟩, []⟩) =
      ("A1", process_product ⟨⟨idA1, []⟩, []⟩) :=
  c7_conflict_silently_ignored idConflict _ "A" (by decide) (by decide)

/-- The product `A->A`: one path whose two ids carry the same name `A`. -/
def prodSelfLoop : ProductTree := ⟨⟨idA, [idA]⟩, []⟩

/-- Claim C8, counterexample: compiling the product `A->A` produces the
self-loop edge `(A, A)` — the path step between two occurrences of the same
name adds an edge from the node to itself (networkx graphs allow
self-loops), refuting the claim that every compiled edge joins two distinct
nodes. -/
theorem c8_counterexample :
    (process_product prodSelfLoop).edges = [("A", "A")] := by decide

/-- Two undirected edge entries denote the same edge when they agree up to
orientation. -/
def sameEdge (e f : String × String) : Prop :=
  (e.1 = f.1 ∧ e.2 = f.2) ∨ (e.1 = f.2 ∧ e.2 = f.1)

theorem not_sameEdge_of_hasEdge_false {g : NXGraph} {a b : String}
    (h : hasEdge g a b = false) : ∀ e ∈ g.edges, ¬ sameEdge e (a, b) := by
  intro e he hs
  rw [hasEdge, List.any_eq_false] at h
  have := h e he
  rcases hs with ⟨h1, h2⟩ | ⟨h1, h2⟩ <;> simp [h1, h2] at this

theorem add_edge_pairwise {g : NXGraph} (a b : String)
    (h : g.edges.Pairwise (fun e f => ¬ sameEdge e f)) :
    (add_edge g a b).edges.Pairwise (fun e f => ¬ sameEdge e f) := by
  unfold add_edge
  by_cases he : hasEdge g a b
  · rw [if_pos he]; exact h
  · rw [if_neg he]
    show (g.edges ++ [(a, b)]).Pairwise _
    rw [List.pairwise_append]
    refine ⟨h, List.pairwise_singleton _ _, ?_⟩
    intro e hme f hmf
    rcases List.mem_singleton.mp hmf with rfl
    exact not_sameEdge_of_hasEdge_false (Bool.eq_false_iff.mpr he) e hme

theorem process_id_edges (i : IdTree) (g : NXGraph) :
    (process_id i g).2.edges = g.edges := by
  by_cases h : idName i ∈ nodeNames g
  · rw [process_id_of_mem h]
  · rw [process_id_of_not_mem h]

theorem process_step_pairwise (ab : IdTree × IdTree) {g : NXGraph}
    (h : g.edges.Pairwise (fun e f => ¬ sameEdge e f)) :
    (process_step g ab).edges.Pairwise (fun e f => ¬ sameEdge e f) := by
  simp only [process_step]
  apply add_edge_pairwise
  rw [process_id_edges, process_id_edges]
  exact h

/-- Claim C8, amended: a compiled product graph never contains two edge
entries denoting the same undirected node pair (`add_edge` is idempotent),
though it can contain self-loops (see the counterexample). -/
theorem c8_no_duplicate_edges (pt : ProductTree) :
    (process_product pt).edges.Pairwise (fun e f => ¬ sameEdge e f) := by
  rw [process_product]
  have hstep : ∀ (ps : List PathTree) (g : NXGraph),
      g.edges.Pairwise (fun e f => ¬ sameEdge e f) →
      ((ps.foldl (fun g path => process_path path g) g).edges).Pairwise
        (fun e f => ¬ sameEdge e f) := by
    intro ps
    induction ps with
    | nil => intro g hg; exact hg
    | cons p rest ih =>
      intro g hg
      rw [List.foldl_cons]
      apply ih
      obtain ⟨a, prest⟩ := p
      cases prest with
      | nil =>
        show ((process_id _ _).2.edges).Pairwise _
        rw [process_id_edges]
        exact hg
      | cons b t =>
        show (((zipConsec (a :: b :: t)).foldl process_step g).edges).Pairwise _
        have hfold : ∀ (qs : List (IdTree × IdTree)) (g : NXGraph),
            g.edges.Pairwise (fun e f => ¬ sameEdge e f) →
            ((qs.foldl process_step g).edges).Pairwise
              (fun e f => ¬ sameEdge e f) := by
          intro qs
          induction qs with
          | nil => intro g hg; exact hg
          | cons q qrest qih =>
            intro g hg
            rw [List.foldl_cons]
            exact qih _ (process_step_pairwise q hg)
        exact hfold _ _ hg
  exact hstep _ _ (by simp [emptyNXGraph])

/-- Claim C10: a compiled rule's product list is never empty (the grammar
guarantees at least one alternative), `get_random_product` always returns
one of the listed products, and when exactly one product exists the result
is `rhs[0]`, independent of the random draw. -/
theorem c10_get_random_product (rt : RuleTree) (pick : Nat) :
    (compileRule rt).rhs ≠ [] ∧
    (∃ g, get_random_product (compileRule rt) pick = some g ∧
      g ∈ (compileRule rt).rhs) ∧
    ((compileRule rt).rhs.length = 1 →
      get_random_product (compileRule rt) pick = (compileRule rt).rhs.head?) := by
  have hne : (compileRule rt).rhs ≠ [] := by
    show process_rhs rt.rhs ≠ []
    simp [process_rhs]
  refine ⟨hne, ?_, ?_⟩
  · unfold get_random_product
    by_cases hl : (compileRule rt).rhs.length = 1
    · rw [if_pos hl]
      cases hrhs : (compileRule rt).rhs with
      | nil => exact absurd hrhs hne
      | cons a l =>
        exact ⟨a, rfl, hrhs ▸ List.mem_cons_self a l⟩
    · rw [if_neg hl]
      have hlen : 0 < (compileRule rt).rhs.length :=
        List.length_pos.mpr hne
      have hidx : pick % (compileRule rt).rhs.length <
          (compileRule rt).rhs.length := Nat.mod_lt _ hlen
      refine ⟨(compileRule rt).rhs[pick % (compileRule rt).rhs.length], ?_, ?_⟩
      · exact List.getElem?_eq_getElem hidx
      · exact List.getElem_mem hidx
  · intro hl
    unfold get_random_product
    rw [if_pos hl]

/-- Claim C10, witness: the rule `A ==> B | A;` with two products, and the
single-product rule `A1->A2->A3 ==> B;`, drawn at pick 3. -/
theorem c10_get_random_product_witness :
    (compileRule ⟨prodA, ⟨prodB, [prodA]⟩⟩).rhs ≠ [] ∧
    (∃ g, get_random_product (compileRule ⟨prodA, ⟨prodB, [prodA]⟩⟩) 3 = some g ∧
      g ∈ (compileRule ⟨prodA, ⟨prodB, [prodA]⟩⟩).rhs) ∧
    ((compileRule ⟨prodA, ⟨prodB, [prodA]⟩⟩).rhs.length = 1 →
      get_random_product (compileRule ⟨prodA, ⟨prodB, [prodA]⟩⟩) 3 =
        (compileRule ⟨prodA, ⟨prodB, [prodA]⟩⟩).rhs.head?) :=
  c10_get_random_product ⟨prodA, ⟨prodB, [prodA]⟩⟩ 3

/-- The compiled rule `A->B ==> B;`, whose LHS has two nodes. -/
def ruleAB : Rule := compileRule ⟨⟨⟨idA, [idB]⟩, []⟩, ⟨prodB, []⟩⟩

/-- Claim C5, counterexample: with the grammar `[ A->B ==> B; ]`,
`_make_starting_graph` returns a copy of the first rule's LHS — a two-node
graph of types `A` and `B` — not a single node of a reserved sentinel type.
(`generate` has no seed parameter at all.) -/
theorem c5_counterexample :
    make_starting_graph [ruleAB] = Except.ok ruleAB.lhs ∧
    ruleAB.lhs.nodes.length = 2 ∧
    ruleAB.lhs.types = insert "A" (insert "B" ∅) := by
  refine ⟨rfl, by decide, by decide⟩

/-- Claim C5, amended: the initial host graph `generate` starts from is
always a (deep) copy of the first rule's LHS pattern graph; no sentinel
type and no caller-supplied seed exist in the source. -/
theorem c5_starting_graph_is_first_lhs (r : Rule) (rules : List Rule) :
    make_starting_graph (r :: rules) = Except.ok r.lhs := rfl

/-- Claim C6, counterexample: `generate` on a Generator with an empty rule
list does not return the seed graph with a Fixpoint halt reason — it raises
IndexError, because `_make_starting_graph` reads `self._rules[0]` (and no
seed parameter or HaltReason exists in the source). -/
theorem c6_counterexample :
    generate [] = Except.error PyError.indexError := rfl

/-- Claim C6, amended: `generate` never returns a graph at all: with an
empty rule list it raises IndexError while building the starting graph, and
otherwise it raises NotImplementedError — either inside `_apply_rule` when
some rule is useable, or after the loop before the dead `return graph`
line. -/
theorem c6_generate_never_returns (rules : List Rule) :
    generate rules = Except.error
      (if rules.isEmpty then PyError.indexError
        else PyError.notImplementedError) := by
  cases rules with
  | nil => rfl
  | cons r rest =>
    show (if (get_useable_rules (r :: rest) r.lhs).isEmpty then
        Except.error PyError.notImplementedError
      else Except.error PyError.notImplementedError) = _
    rw [ite_self]
    rfl

/-- Halt reasons of the specified generation loop (spec section 4.5). -/
inductive HaltReason where
  | Fixpoint
  | StepBound
  deriving DecidableEq, Repr

/-- Modelled from the spec: the Rewriter of section 4.4 is missing from the
source (`Generator._apply_rule` raises NotImplementedError right after
refreshing the type info).  For the section-8 bounded non-termination
scenario with the rule `A ==> A->A;` the spec describes the rewrite as
replacing a matched type-`A` node by two freshly connected type-`A` nodes,
dropping the removed node's boundary edges (section 4.4 step 2) and
refreshing the type index with the source's own `_update_type_info`
(section 4.4 step 6).  `fresh` is the monotone id allocator of section 3. -/
def rewriteAtoAA (g : NXGraph) (fresh : Nat) : NXGraph × Nat :=
  match g.nodes.find? (fun nt => nt.2 == "A") with
  | none => (g, fresh)
  | some nt =>
      let a := nt.1
      let n1 := "n" ++ toString fresh
      let n2 := "n" ++ toString (fresh + 1)
      (update_type_info
        { nodes := (g.nodes.filter (fun p => !(p.1 == a))) ++
            [(n1, "A"), (n2, "A")],
          edges := (g.edges.filter (fun e => !(e.1 == a) && !(e.2 == a))) ++
            [(n1, n2)],
          types := g.types,
          typeCounts := g.typeCounts }, fresh + 2)

/-- Modelled from the spec: the generation loop of section 4.5 with a
maximum step count, which the source's `generate` lacks.  Each iteration
recomputes the useable set with the source's `_get_useable_rules`; an empty
useable set halts with Fixpoint, an exhausted step budget halts with
StepBound, and otherwise the scenario rewrite is applied and the rewrite
counter incremented. -/
def genRun (rules : List Rule)
    (rewrite : NXGraph → Nat → NXGraph × Nat) :
    Nat → NXGraph → Nat → Nat → NXGraph × HaltReason × Nat
  | 0, g, _, steps =>
    if (get_useable_rules rules g).isEmpty then
      (g, HaltReason.Fixpoint, steps)
    else
      (g, HaltReason.StepBound, steps)
  | r + 1, g, fresh, steps =>
    if (get_useable_rules rules g).isEmpty then
      (g, HaltReason.Fixpoint, steps)
    else
      genRun rules rewrite r (rewrite g fresh).1 (rewrite g fresh).2
        (steps + 1)

/-- The compiled rule `A ==> A->A;`. -/
def ruleAtoAA : Rule := compileRule ⟨prodA, ⟨⟨⟨idA, [idA]⟩, []⟩, []⟩⟩

/-- A seed host graph holding the single type-`A` node `n0`, with its
recorded type attributes produced by the source's `_update_type_info`. -/
def seedA : NXGraph :=
  update_type_info ⟨[("n0", "A")], [], ∅, []⟩

/-- Claim C9: with the single-rule grammar `A ==> A->A;`, a seed of one
type-`A` node and a maximum step count of 5, the (spec-modelled) generation
loop halts with StepBound after exactly 5 rewrites — the rule stays useable
at every step, and the loop, being structurally recursive on the remaining
step budget, cannot run forever. -/
theorem c9_step_bound_halts_after_five :
    (genRun [ruleAtoAA] rewriteAtoAA 5 seedA 1 0).2 =
      (HaltReason.StepBound, 5) := by decide
